import Mathlib

/-
Verification of the generic syntax highlighter (texteditor/generichighlighter)
and of the breakpoint window (debugger/breakwindow.cpp).

The highlighter's implementation file is not part of the sources; only
highlighter.h (declarations and the documented bit layout of block states) is.
Definitions for that subsystem are therefore modelled from the specification,
as flagged on each definition.  breakwindow.cpp is present in full and the
corresponding definitions are translated from it directly.
-/

namespace QtC

/-! ## State codec -/

/-- The observable state `PersistentsStart` (= 3): ids below it are the
sentinel states Default (0), WillContinue (1) and Continued (2);
see Highlighter::ObservableBlockState in highlighter.h. -/
def persistentsStart : ℕ := 3

/-- Modelled from the spec: the implementation of `Highlighter::computeState`
is not in src (only its declaration in highlighter.h).  Per the spec,
observableState occupies the low 12 bits and regionDepth the remaining bits,
so packing is `regionDepth * 2^12 + observableState`. -/
def computeState (regionDepth observableState : ℕ) : ℕ :=
  regionDepth * 4096 + observableState

/-- Modelled from the spec: the implementation of
`Highlighter::extractRegionDepth` is not in src.  The region depth is the
packed state shifted right by the 12 observable bits. -/
def extractRegionDepth (state : ℕ) : ℕ :=
  state / 4096

/-- Modelled from the spec: the implementation of
`Highlighter::extractObservableState` is not in src.  The observable state is
the low 12 bits of the packed state. -/
def extractObservableState (state : ℕ) : ℕ :=
  state % 4096

/-! ## Context instances and the persistent/leading tables -/

/-- One entry of the context stack: a context identity plus the dynamic
capture bindings it was instantiated with (spec section 9: a
(context-handle, captured-strings) pair). -/
structure CtxInstance where
  name : String
  captures : List String
deriving DecidableEq

/-- A context-sequence key: the canonical identity of a whole context stack
(context identities plus captures), used as lookup key for the persistent and
leading tables. -/
abbrev CtxKey := List CtxInstance

/-- Positional lookup in a list, `none` out of range. -/
def listNth {α : Type} : List α → ℕ → Option α
  | [], _ => none
  | a :: _, 0 => some a
  | _ :: l, n + 1 => listNth l n

/-- First index of a key in a list of keys, `none` when absent. -/
def seqIndex : List CtxKey → CtxKey → Option ℕ
  | [], _ => none
  | k :: ks, key => if k = key then some 0 else (seqIndex ks key).map (· + 1)

/-- Modelled from the spec: the mutable per-instance tables of the
highlighter (m_persistentObservableStates, m_persistentContexts,
m_leadingObservableStates, m_isBroken); the implementation file maintaining
them is not in src.  The two persistent hashes are bidirectional views of one
allocation-ordered list of context sequences: the sequence stored at position
`i` has persistent id `persistentsStart + i`. -/
structure HighlighterState where
  persistentSequences : List CtxKey
  leadingObservableStates : List (CtxKey × ℕ)
  isBroken : Bool
deriving DecidableEq

/-- The running counter of allocated persistent states
(m_persistentObservableStatesCounter). -/
def HighlighterState.counter (st : HighlighterState) : ℕ :=
  st.persistentSequences.length

/-- Forward table m_persistentObservableStates: context sequence to its
persistent observable state. -/
def lookupPersistentId (st : HighlighterState) (key : CtxKey) : Option ℕ :=
  (seqIndex st.persistentSequences key).map (fun i => persistentsStart + i)

/-- Reverse table m_persistentContexts: persistent observable state to the
context sequence (the actual stack) it denotes. -/
def persistentContexts (st : HighlighterState) (id : ℕ) : Option CtxKey :=
  if id < persistentsStart then none
  else listNth st.persistentSequences (id - persistentsStart)

/-- Modelled from the spec: `Highlighter::mapPersistentSequence` (only
declared in highlighter.h).  If the key is unseen, allocate
`persistentsStart + counter` by appending the key to the allocation list and
store it bidirectionally; otherwise do nothing. -/
def mapPersistentSequence (st : HighlighterState) (key : CtxKey) : HighlighterState :=
  if (seqIndex st.persistentSequences key).isSome then st
  else { st with persistentSequences := st.persistentSequences ++ [key] }

/-- Lookup in the leading-state table. -/
def lookupLeading (st : HighlighterState) (key : CtxKey) : Option ℕ :=
  (st.leadingObservableStates.find? (fun p => p.1 = key)).map Prod.snd

/-- Modelled from the spec: `Highlighter::mapLeadingSequence` (only declared
in highlighter.h).  Records which transitional observable state
(WillContinue/Continued) led to the given context sequence; the table only
grows. -/
def mapLeadingSequence (st : HighlighterState) (key : CtxKey) (obs : ℕ) : HighlighterState :=
  if (lookupLeading st key).isSome then st
  else { st with leadingObservableStates := (key, obs) :: st.leadingObservableStates }

/-- Decoding a packed block state in the context of a highlighter instance.
In the code extractRegionDepth/extractObservableState are static and do not
read the instance; the wrapper makes that explicit by ignoring `st`. -/
def decodeState (_st : HighlighterState) (state : ℕ) : ℕ × ℕ :=
  (extractRegionDepth state, extractObservableState state)

/-! ## Rule engine -/

/-- A rule's context-transition instruction: stay, push a named context, or
pop n contexts. -/
inductive CtxTransition where
  | stay : CtxTransition
  | pushCtx : String → CtxTransition
  | popCtx : ℕ → CtxTransition

mutual

/-- Modelled from the spec: the Rule class (rule.h/rule.cpp are not in src).
A rule is a pattern — abstracted as a total match function from the line text
and an offset to an optional match length, covering literal strings, char
classes, regexes and the structural rules —, an output format id, a
context-transition instruction, a flag marking the LineContinue rule, region
begin/end folding markers, and child rules evaluated at the parent's
un-advanced offset. -/
inductive SRule where
  | mk : (List Char → ℕ → Option ℕ) → ℕ → CtxTransition → Bool → Bool → Bool →
      SRules → SRule

/-- A list of child rules (mutually inductive with SRule so that evaluation
can recurse into children structurally). -/
inductive SRules where
  | nil : SRules
  | cons : SRule → SRules → SRules

end

/-- The rule's pattern-match function. -/
def SRule.mtch : SRule → List Char → ℕ → Option ℕ
  | .mk m _ _ _ _ _ _ => m

/-- The rule's output format id. -/
def SRule.formatId : SRule → ℕ
  | .mk _ f _ _ _ _ _ => f

/-- The rule's context transition. -/
def SRule.transition : SRule → CtxTransition
  | .mk _ _ t _ _ _ _ => t

/-- Whether the rule is the LineContinue rule (trailing escape character). -/
def SRule.isLineContinue : SRule → Bool
  | .mk _ _ _ c _ _ _ => c

/-- Whether a match of the rule begins a folding region. -/
def SRule.beginsRegion : SRule → Bool
  | .mk _ _ _ _ b _ _ => b

/-- Whether a match of the rule ends a folding region. -/
def SRule.endsRegion : SRule → Bool
  | .mk _ _ _ _ _ e _ => e

/-- The rule's child rules. -/
def SRule.children : SRule → SRules
  | .mk _ _ _ _ _ _ cs => cs

/-- A format span: (offset, count, format id), as produced by applyFormat. -/
abbrev Span := ℕ × ℕ × ℕ

/-- Modelled from the spec: first-match selection over a rule list in
declared order (the rule-evaluation loop of iterateThroughRules, whose
implementation is not in src).  Returns the first rule whose pattern matches
at the offset, together with the match length. -/
def firstMatch : List SRule → List Char → ℕ → Option (SRule × ℕ)
  | [], _, _ => none
  | r :: rs, text, off =>
    match r.mtch text off with
    | some len => some (r, len)
    | none => firstMatch rs text off

/-- Modelled from the spec: evaluation of child rules at the parent's
un-advanced offset — the first matching child applies its format there, and
its own children are evaluated in turn. -/
def childSpans : SRules → List Char → ℕ → List Span
  | .nil, _, _ => []
  | .cons (.mk m f _ _ _ _ cs) rs, text, off =>
    match m text off with
    | some len => (off, len, f) :: childSpans cs text off
    | none => childSpans rs text off

/-- The outcome of one engine step: the new offset, the format spans emitted
at this step, the matched rule's transition (none when no rule matched or the
line-continue rule matched), whether the LineContinue rule matched, and the
matched rule's folding-region markers. -/
structure StepOut where
  offset : ℕ
  formats : List Span
  transition : Option CtxTransition
  willContinue : Bool
  beginsRegion : Bool
  endsRegion : Bool
deriving Inhabited

/-- Modelled from the spec: one iteration of the rule-evaluation loop of
`Highlighter::iterateThroughRules` (implementation not in src).  The first
rule matching at the offset wins; its format covers the matched span and the
offset advances by the match length, a zero-length match being forced to
advance one character (the spec's repeated-empty-match guard: nothing changes
within the step, so the rule would immediately match empty at the same offset
again).  A LineContinue match jumps the offset to the end of the line.  When
no rule matches, the context's default format is applied to one character and
the offset advances by one. -/
def engineStep (defaultFmt : ℕ) (rules : List SRule) (text : List Char)
    (length off : ℕ) : StepOut :=
  match firstMatch rules text off with
  | none => ⟨off + 1, [(off, 1, defaultFmt)], none, false, false, false⟩
  | some (r, len) =>
    if r.isLineContinue then
      ⟨length, [(off, length - off, r.formatId)], none, true,
        r.beginsRegion, r.endsRegion⟩
    else
      let adv := if len = 0 then 1 else len
      ⟨off + adv, (off, adv, r.formatId) :: childSpans r.children text off,
        some r.transition, false, r.beginsRegion, r.endsRegion⟩

/-- Modelled from the spec: the driving loop of
`Highlighter::iterateThroughRules` over a fixed rule list (implementation not
in src).  Iteration ends when the offset reaches the line length; the fuel
argument bounds the number of steps, and the termination theorem shows that
`length - off` steps always suffice.  Returns the final offset and the
emitted spans. -/
def iterateThroughRules (defaultFmt : ℕ) (rules : List SRule) (text : List Char)
    (length : ℕ) : ℕ → ℕ → ℕ × List Span
  | 0, off => (off, [])
  | fuel + 1, off =>
    if off < length then
      let s := engineStep defaultFmt rules text length off
      let rest := iterateThroughRules defaultFmt rules text length fuel s.offset
      (rest.1, s.formats ++ rest.2)
    else (off, [])

/-! ## Context graph and the per-line run -/

/-- Modelled from the spec: a lexing context of the definition (context.h is
not in src): a name, an ordered rule list, and the fallback format id applied
to characters no rule matches. -/
structure SContext where
  name : String
  rules : List SRule
  formatId : ℕ

/-- Modelled from the spec: an immutable highlight definition — the named
contexts and the name of the default context.  Contexts reference each other
by name (push targets), so cyclic context graphs are representable. -/
structure HDefinition where
  contexts : List SContext
  defaultContextName : String

/-- The stack holding only the default context, as built by setupDefault. -/
def defaultStack (d : HDefinition) : CtxKey :=
  [⟨d.defaultContextName, []⟩]

/-- Resolve a context name in the definition. -/
def HDefinition.find (d : HDefinition) (n : String) : Option SContext :=
  d.contexts.find? (fun c => c.name == n)

/-- The context applied to the line right now: the top (head) of the context
stack, resolved in the definition; unresolvable entries fall back to the
default context. -/
def currentContext (d : HDefinition) (stack : CtxKey) : SContext :=
  match stack.head? with
  | some inst =>
    match d.find inst.name with
    | some c => c
    | none => (d.find d.defaultContextName).getD ⟨d.defaultContextName, [], 0⟩
  | none => (d.find d.defaultContextName).getD ⟨d.defaultContextName, [], 0⟩

/-- Modelled from the spec: applying a matched rule's context transition to
the context stack (changeContext/handleContextChange, implementation not in
src).  Pushes instantiate the named context (captures empty unless dynamic);
pops remove entries but never leave the stack empty — popping everything
falls back to the default context. -/
def applyTransition (d : HDefinition) (t : Option CtxTransition) (stack : CtxKey) : CtxKey :=
  match t with
  | none => stack
  | some .stay => stack
  | some (.pushCtx n) => ⟨n, []⟩ :: stack
  | some (.popCtx n) =>
    let s := stack.drop n
    if s.isEmpty then defaultStack d else s

/-- The result of running the engine over one whole line: final offset,
emitted spans, final context stack, final region depth, and whether the line
ended in a LineContinue match. -/
structure RunOut where
  offset : ℕ
  formats : List Span
  stack : CtxKey
  depth : ℕ
  willCont : Bool

/-- Region-depth adjustment for one step. -/
def stepDepth (s : StepOut) (depth : ℕ) : ℕ :=
  (if s.beginsRegion then depth + 1 else depth) - (if s.endsRegion then 1 else 0)

/-- One engine step against the current (top) context of the stack: its rule
list in declared order, its fallback format. -/
def runStep (d : HDefinition) (stack : CtxKey) (text : List Char)
    (length off : ℕ) : StepOut :=
  engineStep (currentContext d stack).formatId (currentContext d stack).rules
    text length off

/-- Combining one step's output with the outcome of the rest of the line. -/
def lineStepOut (s : StepOut) (rest : RunOut) : RunOut :=
  ⟨rest.offset, s.formats ++ rest.formats, rest.stack, rest.depth, rest.willCont⟩

/-- Modelled from the spec: the per-line engine run of highlightBlock
(implementation not in src) — at each position the innermost (top) context's
rule list is evaluated by one engine step, the matched rule's transition
updates the stack, folding markers update the region depth, and a
LineContinue match ends the run with the will-continue flag set.  Fuel-driven
as for iterateThroughRules. -/
def runLine (d : HDefinition) (text : List Char) (length : ℕ) :
    ℕ → CtxKey → ℕ → ℕ → RunOut
  | 0, stack, off, depth => ⟨off, [], stack, depth, false⟩
  | fuel + 1, stack, off, depth =>
    if off < length then
      if (runStep d stack text length off).willContinue then
        ⟨length, (runStep d stack text length off).formats, stack,
          stepDepth (runStep d stack text length off) depth, true⟩
      else
        lineStepOut (runStep d stack text length off)
          (runLine d text length fuel
            (applyTransition d (runStep d stack text length off).transition stack)
            (runStep d stack text length off).offset
            (stepDepth (runStep d stack text length off) depth))
    else ⟨off, [], stack, depth, false⟩

/-! ## Line highlighter orchestration -/

/-- The inter-line data available to a block from its predecessor: the packed
block state (QSyntaxHighlighter::previousBlockState) and the context to
resume for continuations (BlockData::m_contextToContinue of the previous
block, recorded by createWillContinueBlock). -/
structure PrevData where
  packed : ℕ
  contextToContinue : Option CtxKey

/-- The observable outcome of highlighting one line: the emitted spans, the
line's new packed state, the continuation data recorded on the block, and the
updated highlighter instance state. -/
structure BlockOut where
  formats : List Span
  outState : ℕ
  contextToContinue : Option CtxKey
  state : HighlighterState

/-- Modelled from the spec: state restoration at the start of a block
(setupDataForBlock dispatching to setupDefault / setupFromWillContinue /
setupFromContinued / setupFromPersistent and pushContextSequence;
implementation not in src).  Default starts from the default context;
WillContinue and Continued resume the recorded continuation stack; a
persistent id is looked up in the m_persistentContexts table, and an id the
table does not know (stale/foreign state) falls back to the default context
and marks the highlighter broken.  Returns the restored stack and the new
broken flag. -/
def setupDataForBlock (d : HDefinition) (st : HighlighterState) (prev : PrevData) :
    CtxKey × Bool :=
  if extractObservableState prev.packed = 0 then (defaultStack d, st.isBroken)
  else if extractObservableState prev.packed = 1 ∨ extractObservableState prev.packed = 2 then
    (prev.contextToContinue.getD (defaultStack d), st.isBroken)
  else
    match persistentContexts st (extractObservableState prev.packed) with
    | some stack => (stack, st.isBroken)
    | none => (defaultStack d, true)

/-- The ending phase of highlightBlock: encode the line's final state from
the engine run's outcome.  A LineContinue ending yields WillContinue (1) and
records the stack on the block; a final stack equal to the plain default
context yields Default (0); a continuation line (incoming observable state
WillContinue) that stays in a non-default context becomes a Continued (2)
block; any other non-default final stack is canonicalized through
mapPersistentSequence and its persistent id is encoded. -/
def blockEnding (d : HDefinition) (st1 : HighlighterState) (incomingObs : ℕ)
    (r : RunOut) : BlockOut :=
  if r.willCont then
    ⟨r.formats, computeState r.depth 1, some r.stack, mapLeadingSequence st1 r.stack 1⟩
  else if r.stack = defaultStack d then
    ⟨r.formats, computeState r.depth 0, none, st1⟩
  else if incomingObs = 1 then
    ⟨r.formats, computeState r.depth 2, some r.stack, mapLeadingSequence st1 r.stack 2⟩
  else
    ⟨r.formats,
      computeState r.depth
        ((lookupPersistentId (mapPersistentSequence st1 r.stack) r.stack).getD 0),
      none, mapPersistentSequence st1 r.stack⟩

/-- Modelled from the spec: `Highlighter::highlightBlock` (implementation not
in src).  A broken highlighter emits no rule-based formats and state 0.
Otherwise the context stack is restored from the previous line's data via
setupDataForBlock, the engine runs over the whole line, and blockEnding
encodes the outgoing state.  The region depth travels in the upper bits of
the packed state. -/
def highlightBlock (d : HDefinition) (st : HighlighterState) (prev : PrevData)
    (text : List Char) : BlockOut :=
  if st.isBroken then ⟨[], 0, none, st⟩
  else
    blockEnding d { st with isBroken := (setupDataForBlock d st prev).2 }
      (extractObservableState prev.packed)
      (runLine d text text.length text.length (setupDataForBlock d st prev).1 0
        (extractRegionDepth prev.packed))

/-! ## Breakpoint dialog (breakwindow.cpp, BreakpointDialog::showDialog) -/

/-- The fields of BreakpointData read and written by
BreakpointDialog::showDialog (breakwindow.cpp lines 121-166). -/
structure BreakpointData where
  fileName : String
  lineNumber : Int
  funcName : String
  condition : String
  ignoreCount : Int
  useFullPath : Bool
  address : ℕ
  threadSpec : String
deriving DecidableEq

/-- What the user leaves in the dialog's widgets: whether the dialog was
accepted, and the entered value of each field (the `new*` locals of
showDialog). -/
structure DialogInput where
  accepted : Bool
  newLineNumber : Int
  newUseFullPath : Bool
  newAddress : ℕ
  newFunc : String
  newFileName : String
  newCondition : String
  newIgnoreCount : Int
  newThreadSpec : String

/-- BreakpointDialog::showDialog: rejected dialogs return false and leave the
data untouched; accepted dialogs whose entered values all equal the current
data return false and leave the data untouched; otherwise every field is
overwritten with the entered value and true is returned. -/
def showDialog (data : BreakpointData) (input : DialogInput) : Bool × BreakpointData :=
  if input.accepted = false then (false, data)
  else if input.newLineNumber = data.lineNumber ∧ input.newUseFullPath = data.useFullPath
      ∧ input.newAddress = data.address ∧ input.newFunc = data.funcName
      ∧ input.newFileName = data.fileName ∧ input.newCondition = data.condition
      ∧ input.newIgnoreCount = data.ignoreCount ∧ input.newThreadSpec = data.threadSpec
    then (false, data)
  else (true,
    { fileName := input.newFileName
      lineNumber := input.newLineNumber
      funcName := input.newFunc
      condition := input.newCondition
      ignoreCount := input.newIgnoreCount
      useFullPath := input.newUseFullPath
      address := input.newAddress
      threadSpec := input.newThreadSpec })

/-! ## Breakpoint deletion (breakwindow.cpp, BreakWindow::deleteBreakpoints) -/

/-- One backward pass of the deletion loop in
BreakWindow::deleteBreakpoints(QList<int>) (lines 445-449): for
`i = n-1, ..., 0` it fetches `breakpointAt(i)` from the handler's current
contents and removes it; an out-of-range index is skipped
(QTC_ASSERT(data, continue)).  The handler is modelled as the list of its
breakpoints in row order; removal of the breakpoint at row `i` is
`List.eraseIdx`. -/
def deleteLoop : List ℕ → ℕ → List ℕ
  | handler, 0 => handler
  | handler, i + 1 => deleteLoop (handler.eraseIdx i) i

/-- Insertion into a sorted list, for the qSort model. -/
def insertSorted (x : ℕ) : List ℕ → List ℕ
  | [] => [x]
  | y :: ys => if x ≤ y then x :: y :: ys else y :: insertSorted x ys

/-- The qSort call of deleteBreakpoints, modelled as insertion sort (only the
sorted list's size is used afterwards). -/
def sortRows : List ℕ → List ℕ
  | [] => []
  | x :: xs => insertSorted x (sortRows xs)

/-- BreakWindow::deleteBreakpoints(QList<int>): returns immediately on an
empty list; otherwise sorts the list (whose entries are only used through its
size afterwards) and runs the backward deletion loop `list.size()` times. -/
def deleteBreakpoints (handler : List ℕ) (rows : List ℕ) : List ℕ :=
  if rows.isEmpty then handler
  else deleteLoop handler (sortRows rows).length

/-- What claim C10 asserts the function does: keep exactly the breakpoints
whose row index is not listed. -/
def deleteListedRows (handler : List ℕ) (rows : List ℕ) : List ℕ :=
  ((handler.enum.filter (fun p => ¬ p.1 ∈ rows)).map Prod.snd)

/-- The spans produced when no rule ever matches: each of `count` characters
from `off` on gets one single-character span of the context's fallback
format. -/
def defaultSpans (fmt : ℕ) : ℕ → ℕ → List Span
  | _, 0 => []
  | off, n + 1 => (off, 1, fmt) :: defaultSpans fmt (off + 1) n

/-! ## Concrete rule sets used in witnesses and counterexamples -/

/-- A literal-string pattern: matches the characters of `s` at the offset. -/
def strMatcher (s : List Char) : List Char → ℕ → Option ℕ :=
  fun text off => if (text.drop off).take s.length = s then some s.length else none

/-- The LineContinue pattern: a backslash as the last character of the line. -/
def lineContinueMatcher : List Char → ℕ → Option ℕ :=
  fun text off => if listNth text off = some '\\' ∧ off + 1 = text.length then some 1 else none

/-- A rule starting a single-line comment: matches `//` and pushes the
Comment context. -/
def commentStartRule : SRule :=
  .mk (strMatcher ['/', '/']) 9 (.pushCtx "Comment") false false false .nil

/-- The LineContinue rule of the Comment context. -/
def lineContinueRule : SRule :=
  .mk lineContinueMatcher 9 .stay true false false .nil

/-- A two-context definition: Normal (default) entering Comment on `//`,
Comment with format 9 and a LineContinue rule. -/
def demoDef : HDefinition :=
  ⟨[⟨"Normal", [commentStartRule], 0⟩, ⟨"Comment", [lineContinueRule], 9⟩], "Normal"⟩

/-- A freshly constructed highlighter instance: empty tables, not broken. -/
def freshState : HighlighterState := ⟨[], [], false⟩

/-- The line `// c\` of the continuation scenario. -/
def lineOne : List Char := ['/', '/', ' ', 'c', '\\']

/-- The line `more` of the continuation scenario. -/
def lineTwo : List Char := ['m', 'o', 'r', 'e']

/-- A one-rule definition: the character `a` gets format 2. -/
def kwRule : SRule := .mk (strMatcher ['a']) 2 .stay false false false .nil

/-- The definition holding only kwRule in its default context. -/
def kwDef : HDefinition := ⟨[⟨"Normal", [kwRule], 0⟩], "Normal"⟩

/-- A stale incoming block state: persistent id 3, unknown to a fresh
instance's tables. -/
def stalePrev : PrevData := ⟨3, none⟩

/-- The line `a`. -/
def lineA : List Char := ['a']

/-- A rule matching the empty string at every offset. -/
def emptyMatchRule : SRule := .mk (fun _ _ => some 0) 1 .stay false false false .nil

/-- A rule matching the literal `ab` (listed first in the overlap demo). -/
def abRule : SRule := .mk (strMatcher ['a', 'b']) 5 .stay false false false .nil

/-- A rule matching the literal `a` (listed second in the overlap demo). -/
def aOnlyRule : SRule := .mk (strMatcher ['a']) 6 .stay false false false .nil

/-- The line `ab`. -/
def lineAB : List Char := ['a', 'b']

/-- The rule list with two rules overlapping at offset 0 on `ab`. -/
def overlapRules : List SRule := [abRule, aOnlyRule]

/-- The line which opens a comment without closing it. -/
def lineOpen : List Char := ['/', '/', 'x']

/-- A one-context sequence key used in table witnesses. -/
def keyA : CtxKey := [⟨"A", []⟩]

/-- A second one-context sequence key used in table witnesses. -/
def keyB : CtxKey := [⟨"B", []⟩]

/-- An instance state whose tables already hold keyA under id 3. -/
def stA : HighlighterState := ⟨[keyA], [], false⟩

/-! ## Theorems -/

theorem seqIndex_append_of_some (l l' : List CtxKey) (key : CtxKey) :
    ∀ i, seqIndex l key = some i → seqIndex (l ++ l') key = some i := by
  induction l with
  | nil => intro i h; simp [seqIndex] at h
  | cons k ks ih =>
    intro i h
    have hu : seqIndex (k :: ks) key
        = if k = key then some 0 else (seqIndex ks key).map (· + 1) := rfl
    have hv : seqIndex ((k :: ks) ++ l') key
        = if k = key then some 0 else (seqIndex (ks ++ l') key).map (· + 1) := rfl
    rw [hu] at h
    rw [hv]
    by_cases hk : k = key
    · rw [if_pos hk] at h ⊢; exact h
    · rw [if_neg hk] at h ⊢
      cases hs : seqIndex ks key with
      | none => rw [hs] at h; simp at h
      | some j => rw [hs] at h; rw [ih j hs]; exact h

theorem seqIndex_append_self (l : List CtxKey) (key : CtxKey)
    (h : seqIndex l key = none) : seqIndex (l ++ [key]) key = some l.length := by
  induction l with
  | nil => simp [seqIndex]
  | cons k ks ih =>
    have hu : seqIndex (k :: ks) key
        = if k = key then some 0 else (seqIndex ks key).map (· + 1) := rfl
    have hv : seqIndex ((k :: ks) ++ [key]) key
        = if k = key then some 0 else (seqIndex (ks ++ [key]) key).map (· + 1) := rfl
    rw [hu] at h
    rw [hv]
    by_cases hk : k = key
    · rw [if_pos hk] at h; simp at h
    · rw [if_neg hk] at h ⊢
      cases hs : seqIndex ks key with
      | some j => rw [hs] at h; simp at h
      | none => rw [ih hs]; simp [List.length_cons]

theorem listNth_append {α : Type} (l l' : List α) :
    ∀ n, n < l.length → listNth (l ++ l') n = listNth l n := by
  induction l with
  | nil => intro n h; simp at h
  | cons x xs ih =>
    intro n h
    cases n with
    | zero => rfl
    | succ m =>
      simp only [List.cons_append, listNth]
      exact ih m (by simpa using h)

theorem listNth_some_lt {α : Type} (l : List α) :
    ∀ n x, listNth l n = some x → n < l.length := by
  induction l with
  | nil => intro n x h; simp [listNth] at h
  | cons y ys ih =>
    intro n x h
    cases n with
    | zero => simp
    | succ m =>
      simp only [listNth] at h
      have := ih m x h
      simp only [List.length_cons]
      omega

theorem mapPersistentSequence_isBroken (st : HighlighterState) (key : CtxKey) :
    (mapPersistentSequence st key).isBroken = st.isBroken := by
  unfold mapPersistentSequence
  split <;> rfl

theorem lookupPersistentId_map_mono (st : HighlighterState) (key key' : CtxKey) (k : ℕ)
    (h : lookupPersistentId st key = some k) :
    lookupPersistentId (mapPersistentSequence st key') key = some k := by
  unfold lookupPersistentId at h ⊢
  unfold mapPersistentSequence
  split
  · exact h
  · cases hs : seqIndex st.persistentSequences key with
    | none => rw [hs] at h; simp at h
    | some i =>
      rw [hs] at h
      show (seqIndex (st.persistentSequences ++ [key']) key).map _ = some k
      rw [seqIndex_append_of_some st.persistentSequences [key'] key i hs]
      exact h

theorem persistentContexts_map_mono (st : HighlighterState) (key' : CtxKey) (id : ℕ)
    (seqv : CtxKey) (h : persistentContexts st id = some seqv) :
    persistentContexts (mapPersistentSequence st key') id = some seqv := by
  unfold persistentContexts at h ⊢
  by_cases hlt : id < persistentsStart
  · rw [if_pos hlt] at h; simp at h
  · rw [if_neg hlt] at h ⊢
    unfold mapPersistentSequence
    split
    · exact h
    · show listNth (st.persistentSequences ++ [key']) _ = some seqv
      rw [listNth_append st.persistentSequences [key'] _
        (listNth_some_lt st.persistentSequences _ seqv h)]
      exact h

theorem lookupPersistentId_foldl_mono (keys : List CtxKey) :
    ∀ (st : HighlighterState) (key : CtxKey) (k : ℕ),
      lookupPersistentId st key = some k →
      lookupPersistentId (List.foldl mapPersistentSequence st keys) key = some k := by
  induction keys with
  | nil => intro st key k h; exact h
  | cons k0 ks ih =>
    intro st key k h
    exact ih (mapPersistentSequence st k0) key k
      (lookupPersistentId_map_mono st key k0 k h)

theorem persistentContexts_foldl_mono (keys : List CtxKey) :
    ∀ (st : HighlighterState) (id : ℕ) (seqv : CtxKey),
      persistentContexts st id = some seqv →
      persistentContexts (List.foldl mapPersistentSequence st keys) id = some seqv := by
  induction keys with
  | nil => intro st id seqv h; exact h
  | cons k0 ks ih =>
    intro st id seqv h
    exact ih (mapPersistentSequence st k0) id seqv
      (persistentContexts_map_mono st k0 id seqv h)

theorem engineStep_offset_gt (fmt : ℕ) (rules : List SRule) (text : List Char)
    (length off : ℕ) (h : off < length) :
    off < (engineStep fmt rules text length off).offset := by
  unfold engineStep
  split
  · show off < off + 1
    omega
  · split
    · exact h
    · rename_i r len heq hlc
      show off < off + (if len = 0 then 1 else len)
      by_cases hl : len = 0
      · rw [if_pos hl]; omega
      · rw [if_neg hl]; omega

theorem engineStep_empty_match (fmt : ℕ) (rules : List SRule) (text : List Char)
    (length off : ℕ) (r : SRule) (hm : firstMatch rules text off = some (r, 0))
    (hlc : r.isLineContinue = false) :
    (engineStep fmt rules text length off).offset = off + 1 := by
  unfold engineStep
  rw [hm]
  simp [hlc]

theorem iterateThroughRules_reaches (fmt : ℕ) (rules : List SRule) (text : List Char)
    (length : ℕ) :
    ∀ (fuel off : ℕ), length - off ≤ fuel →
      length ≤ (iterateThroughRules fmt rules text length fuel off).1 := by
  intro fuel
  induction fuel with
  | zero =>
    intro off h
    show length ≤ off
    omega
  | succ n ih =>
    intro off h
    by_cases hlt : off < length
    · have hstep := engineStep_offset_gt fmt rules text length off hlt
      show length ≤ (if off < length then _ else (off, [])).1
      rw [if_pos hlt]
      exact ih (engineStep fmt rules text length off).offset (by omega)
    · show length ≤ (if off < length then _ else (off, [])).1
      rw [if_neg hlt]
      show length ≤ off
      omega

/-- Claim C3: for every rule list, line text and starting offset the rule
engine terminates: every engine step strictly increases the offset, a rule
matching empty text at an offset (which, nothing having changed, would match
empty there again) is forced to advance one character, and the driving loop
reaches the line length within `length - off` steps. -/
theorem iterateThroughRules_terminating :
    ∀ (fmt : ℕ) (rules : List SRule) (text : List Char) (length off fuel : ℕ),
      (off < length → off < (engineStep fmt rules text length off).offset) ∧
      (∀ r, firstMatch rules text off = some (r, 0) → r.isLineContinue = false →
        (engineStep fmt rules text length off).offset = off + 1) ∧
      (length - off ≤ fuel →
        length ≤ (iterateThroughRules fmt rules text length fuel off).1) :=
  fun fmt rules text length off fuel =>
    ⟨engineStep_offset_gt fmt rules text length off,
     fun r hm hlc => engineStep_empty_match fmt rules text length off r hm hlc,
     fun h => iterateThroughRules_reaches fmt rules text length fuel off h⟩

/-- Witness for C3: a rule matching the empty string at every offset still
lets the loop reach the end of the two-character line `ab`. -/
theorem iterateThroughRules_terminating_witness :
    ((0 : ℕ) < 2 ∧ 0 < (engineStep 0 [emptyMatchRule] lineAB 2 0).offset) ∧
    (firstMatch [emptyMatchRule] lineAB 0 = some (emptyMatchRule, 0) ∧
      emptyMatchRule.isLineContinue = false ∧
      (engineStep 0 [emptyMatchRule] lineAB 2 0).offset = 0 + 1) ∧
    ((2 : ℕ) - 0 ≤ 2 ∧ 2 ≤ (iterateThroughRules 0 [emptyMatchRule] lineAB 2 2 0).1) :=
  ⟨⟨by decide,
    (iterateThroughRules_terminating 0 [emptyMatchRule] lineAB 2 0 2).1 (by decide)⟩,
   ⟨rfl, rfl,
    (iterateThroughRules_terminating 0 [emptyMatchRule] lineAB 2 0 2).2.1
      emptyMatchRule rfl rfl⟩,
   ⟨by decide,
    (iterateThroughRules_terminating 0 [emptyMatchRule] lineAB 2 0 2).2.2 (by decide)⟩⟩

theorem firstMatch_least (text : List Char) (off : ℕ) :
    ∀ (rules : List SRule) (i : ℕ) (hi : i < rules.length) (len : ℕ),
      (∀ k (hk : k < i), (rules.get ⟨k, hk.trans hi⟩).mtch text off = none) →
      (rules.get ⟨i, hi⟩).mtch text off = some len →
      firstMatch rules text off = some (rules.get ⟨i, hi⟩, len) := by
  intro rules
  induction rules with
  | nil => intro i hi; simp at hi
  | cons r rs ih =>
    intro i hi len hnone hm
    cases i with
    | zero =>
      unfold firstMatch
      rw [show (r :: rs).get ⟨0, hi⟩ = r from rfl] at hm
      rw [hm]
      rfl
    | succ j =>
      have h0 : r.mtch text off = none := hnone 0 (Nat.succ_pos j)
      unfold firstMatch
      rw [h0]
      exact ih j (Nat.lt_of_succ_lt_succ hi) len
        (fun k hk => hnone (k + 1) (Nat.succ_lt_succ hk)) hm

/-- Claim C4: when several rules of a rule list match at the same offset, the
engine applies the one listed first: firstMatch selects the least-index
matching rule, and the step's emitted format and recorded transition are that
rule's, so a later overlapping rule's format and transition are not applied
at this offset. -/
theorem iterateThroughRules_ordered_alternation :
    ∀ (fmt : ℕ) (rules : List SRule) (text : List Char) (length off i len : ℕ)
      (hi : i < rules.length),
      (∀ k (hk : k < i), (rules.get ⟨k, hk.trans hi⟩).mtch text off = none) →
      (rules.get ⟨i, hi⟩).mtch text off = some len →
      firstMatch rules text off = some (rules.get ⟨i, hi⟩, len) ∧
      ((rules.get ⟨i, hi⟩).isLineContinue = false →
        (engineStep fmt rules text length off).transition
          = some (rules.get ⟨i, hi⟩).transition ∧
        (engineStep fmt rules text length off).formats
          = (off, (if len = 0 then 1 else len), (rules.get ⟨i, hi⟩).formatId)
            :: childSpans (rules.get ⟨i, hi⟩).children text off) := by
  intro fmt rules text length off i len hi hnone hm
  have hfm := firstMatch_least text off rules i hi len hnone hm
  refine ⟨hfm, fun hlc => ?_⟩
  unfold engineStep
  rw [hfm]
  simp only [hlc, if_false]
  exact ⟨rfl, rfl⟩

/-- Witness for C4: with rules for `ab` (format 5) and `a` (format 6) both
matching `ab` at offset 0, the first-listed `ab` rule is applied. -/
theorem iterateThroughRules_ordered_alternation_witness :
    firstMatch overlapRules lineAB 0 = some (abRule, 2) ∧
    (engineStep 0 overlapRules lineAB 2 0).transition = some CtxTransition.stay ∧
    (engineStep 0 overlapRules lineAB 2 0).formats = [(0, 2, 5)] := by
  have h := iterateThroughRules_ordered_alternation 0 overlapRules lineAB 2 0 0 2
    (by decide) (fun k hk => absurd hk (Nat.not_lt_zero k)) (by decide)
  exact ⟨h.1, (h.2 (by decide)).1, by rw [(h.2 (by decide)).2]; decide⟩

theorem blockEnding_formats (d : HDefinition) (st1 : HighlighterState)
    (obs : ℕ) (r : RunOut) : (blockEnding d st1 obs r).formats = r.formats := by
  unfold blockEnding
  split
  · rfl
  · split
    · rfl
    · split
      · rfl
      · rfl

/-- Claim C6: an incoming packed state whose observable part is a persistent
id unknown to this instance's persistent-contexts table makes state
restoration fall back to the default context stack (and mark the instance
broken), and the line is still highlighted — with the default context's rule
list. -/
theorem pushContextSequence_stale_fallback :
    ∀ (d : HDefinition) (st : HighlighterState) (prev : PrevData) (text : List Char),
      st.isBroken = false →
      persistentsStart ≤ extractObservableState prev.packed →
      persistentContexts st (extractObservableState prev.packed) = none →
      setupDataForBlock d st prev = (defaultStack d, true) ∧
      (highlightBlock d st prev text).formats
        = (runLine d text text.length text.length (defaultStack d) 0
            (extractRegionDepth prev.packed)).formats := by
  intro d st prev text hb hobs hlook
  have h0 : ¬ extractObservableState prev.packed = 0 := by
    unfold persistentsStart at hobs; omega
  have h12 : ¬ (extractObservableState prev.packed = 1
      ∨ extractObservableState prev.packed = 2) := by
    unfold persistentsStart at hobs; omega
  have hsetup : setupDataForBlock d st prev = (defaultStack d, true) := by
    unfold setupDataForBlock
    rw [if_neg h0, if_neg h12, hlook]
  refine ⟨hsetup, ?_⟩
  unfold highlightBlock
  rw [if_neg (by rw [hb]; exact Bool.false_ne_true), hsetup]
  exact blockEnding_formats d _ _ _

/-- Witness for C6: a fresh instance fed the stale persistent state 3 falls
back to the default context and still highlights the line `a`. -/
theorem pushContextSequence_stale_fallback_witness :
    (freshState.isBroken = false ∧
      persistentsStart ≤ extractObservableState stalePrev.packed ∧
      persistentContexts freshState (extractObservableState stalePrev.packed) = none) ∧
    setupDataForBlock kwDef freshState stalePrev = (defaultStack kwDef, true) ∧
    (highlightBlock kwDef freshState stalePrev lineA).formats
      = (runLine kwDef lineA lineA.length lineA.length (defaultStack kwDef) 0
          (extractRegionDepth stalePrev.packed)).formats :=
  ⟨⟨rfl, by decide, by decide⟩,
   (pushContextSequence_stale_fallback kwDef freshState stalePrev lineA rfl
      (by decide) (by decide)).1,
   (pushContextSequence_stale_fallback kwDef freshState stalePrev lineA rfl
      (by decide) (by decide)).2⟩

theorem mapLeadingSequence_isBroken (st : HighlighterState) (key : CtxKey) (obs : ℕ) :
    (mapLeadingSequence st key obs).isBroken = st.isBroken := by
  unfold mapLeadingSequence
  split <;> rfl

theorem setup_willContinue (d : HDefinition) (st' : HighlighterState) (s : ℕ)
    (stk : CtxKey) (hobs : extractObservableState s = 1) :
    setupDataForBlock d st' ⟨s, some stk⟩ = (stk, st'.isBroken) := by
  simp [setupDataForBlock, hobs]

theorem runLine_no_match (d : HDefinition) (text : List Char) (length : ℕ)
    (stack : CtxKey)
    (hnm : ∀ o, o < length →
      (firstMatch (currentContext d stack).rules text o).isNone = true) :
    ∀ (fuel off depth : ℕ), length - off ≤ fuel → off ≤ length →
      runLine d text length fuel stack off depth
        = ⟨length, defaultSpans (currentContext d stack).formatId off (length - off),
           stack, depth, false⟩ := by
  intro fuel
  induction fuel with
  | zero =>
    intro off depth h hle
    have heq : off = length := by omega
    subst heq
    rw [Nat.sub_self]
    rfl
  | succ n ih =>
    intro off depth h hle
    by_cases hlt : off < length
    · have hstep : runStep d stack text length off
          = ⟨off + 1, [(off, 1, (currentContext d stack).formatId)],
             none, false, false, false⟩ := by
        unfold runStep engineStep
        cases hm : firstMatch (currentContext d stack).rules text off with
        | none => rfl
        | some p =>
          have hx := hnm off hlt
          rw [hm] at hx
          simp at hx
      show (if off < length then _ else _) = _
      rw [if_pos hlt, hstep,
        if_neg (fun hcon => Bool.false_ne_true hcon)]
      show lineStepOut
          ⟨off + 1, [(off, 1, (currentContext d stack).formatId)],
            none, false, false, false⟩
          (runLine d text length n stack (off + 1) depth) = _
      have harr : length - off = (length - (off + 1)) + 1 := by omega
      rw [ih (off + 1) depth (by omega) (by omega), harr]
      rfl
    · have heq : off = length := by omega
      subst heq
      show (if off < off then _ else _) = _
      rw [if_neg hlt, Nat.sub_self]
      rfl

/-- Claim C7: a line whose engine run ends in a LineContinue match gets
outgoing observable state WillContinue (1) and its final context stack
recorded for the next block; restoring the next line from that state yields
exactly the recorded stack, and when no rule of the continued (top) context
matches anywhere in the next line's text, every character of the next line
receives the continued context's format. -/
theorem willContinue_state_machine :
    ∀ (d : HDefinition) (st : HighlighterState) (prev : PrevData) (text : List Char)
      (r : RunOut),
      st.isBroken = false →
      r = runLine d text text.length text.length (setupDataForBlock d st prev).1 0
        (extractRegionDepth prev.packed) →
      r.willCont = true →
      extractObservableState (highlightBlock d st prev text).outState = 1 ∧
      (highlightBlock d st prev text).contextToContinue = some r.stack ∧
      setupDataForBlock d (highlightBlock d st prev text).state
          ⟨(highlightBlock d st prev text).outState, some r.stack⟩
        = (r.stack, (setupDataForBlock d st prev).2) ∧
      (∀ text2 : List Char,
        (∀ o, o < text2.length →
          (firstMatch (currentContext d r.stack).rules text2 o).isNone = true) →
        (runLine d text2 text2.length text2.length r.stack 0 0).formats
          = defaultSpans (currentContext d r.stack).formatId 0 text2.length ∧
        (runLine d text2 text2.length text2.length r.stack 0 0).stack = r.stack) := by
  intro d st prev text r hb hr hwc
  have hout : highlightBlock d st prev text
      = ⟨r.formats, computeState r.depth 1, some r.stack,
         mapLeadingSequence { st with isBroken := (setupDataForBlock d st prev).2 }
           r.stack 1⟩ := by
    unfold highlightBlock
    rw [if_neg (by rw [hb]; exact Bool.false_ne_true), ← hr]
    unfold blockEnding
    rw [if_pos hwc]
  have hobs : extractObservableState (computeState r.depth 1) = 1 := by
    unfold computeState extractObservableState
    omega
  refine ⟨?_, ?_, ?_, ?_⟩
  · rw [hout]
    exact hobs
  · rw [hout]
  · rw [hout]
    exact (setup_willContinue d _ (computeState r.depth 1) r.stack hobs).trans
      (congrArg (fun b => (r.stack, b))
        (mapLeadingSequence_isBroken
          { st with isBroken := (setupDataForBlock d st prev).2 } r.stack 1))
  · intro text2 hnm
    rw [runLine_no_match d text2 text2.length r.stack hnm text2.length 0 0
      (by omega) (by omega)]
    exact ⟨rfl, rfl⟩

/-- Witness for C7, the comment-continuation scenario: highlighting `// c\`
from a fresh instance ends in WillContinue (observable state 1) with the
stack [Comment, Normal] recorded; the next line restores that stack, and the
whole line `more` is formatted with the Comment format (9). -/
theorem willContinue_state_machine_witness :
    extractObservableState
        (highlightBlock demoDef freshState ⟨0, none⟩ lineOne).outState = 1 ∧
    (highlightBlock demoDef freshState ⟨0, none⟩ lineOne).contextToContinue
      = some [⟨"Comment", []⟩, ⟨"Normal", []⟩] ∧
    setupDataForBlock demoDef
        (highlightBlock demoDef freshState ⟨0, none⟩ lineOne).state
        ⟨(highlightBlock demoDef freshState ⟨0, none⟩ lineOne).outState,
          some [⟨"Comment", []⟩, ⟨"Normal", []⟩]⟩
      = ([⟨"Comment", []⟩, ⟨"Normal", []⟩], false) ∧
    (runLine demoDef lineTwo lineTwo.length lineTwo.length
        [⟨"Comment", []⟩, ⟨"Normal", []⟩] 0 0).formats
      = defaultSpans 9 0 lineTwo.length := by
  have h := willContinue_state_machine demoDef freshState ⟨0, none⟩ lineOne
    (runLine demoDef lineOne lineOne.length lineOne.length
      (setupDataForBlock demoDef freshState ⟨0, none⟩).1 0
      (extractRegionDepth (PrevData.mk 0 none).packed)) rfl rfl (by decide)
  refine ⟨h.1, ?_, ?_, ?_⟩
  · rw [h.2.1]
    decide
  · have hst : (runLine demoDef lineOne lineOne.length lineOne.length
        (setupDataForBlock demoDef freshState ⟨0, none⟩).1 0
        (extractRegionDepth (PrevData.mk 0 none).packed)).stack
        = [⟨"Comment", []⟩, ⟨"Normal", []⟩] := by decide
    rw [← hst, h.2.2.1]
    decide
  · decide

theorem mapLeadingSequence_seqs (st : HighlighterState) (key : CtxKey) (obs : ℕ) :
    (mapLeadingSequence st key obs).persistentSequences = st.persistentSequences := by
  unfold mapLeadingSequence
  split <;> rfl

theorem persistentContexts_mapLeading (st : HighlighterState) (key : CtxKey)
    (obs id : ℕ) :
    persistentContexts (mapLeadingSequence st key obs) id
      = persistentContexts st id := by
  unfold mapLeadingSequence
  split <;> rfl

theorem update_isBroken_self (st : HighlighterState) :
    ({ st with isBroken := st.isBroken } : HighlighterState) = st := by
  cases st
  rfl

theorem setup_keeps_broken (d : HDefinition) (st : HighlighterState) (prev : PrevData)
    (hstale : persistentsStart ≤ extractObservableState prev.packed →
      (persistentContexts st (extractObservableState prev.packed)).isSome = true) :
    (setupDataForBlock d st prev).2 = st.isBroken := by
  unfold setupDataForBlock
  by_cases h0 : extractObservableState prev.packed = 0
  · rw [if_pos h0]
  · rw [if_neg h0]
    by_cases h12 : extractObservableState prev.packed = 1
        ∨ extractObservableState prev.packed = 2
    · rw [if_pos h12]
    · rw [if_neg h12]
      have hge : persistentsStart ≤ extractObservableState prev.packed := by
        unfold persistentsStart
        omega
      cases hl : persistentContexts st (extractObservableState prev.packed) with
      | some s => rfl
      | none =>
        have hx := hstale hge
        rw [hl] at hx
        simp at hx

theorem setup_stable (d : HDefinition) (st st' : HighlighterState) (prev : PrevData)
    (hctx : ∀ id seqv, persistentContexts st id = some seqv →
      persistentContexts st' id = some seqv)
    (hbr : st'.isBroken = st.isBroken)
    (hstale : persistentsStart ≤ extractObservableState prev.packed →
      (persistentContexts st (extractObservableState prev.packed)).isSome = true) :
    setupDataForBlock d st' prev = setupDataForBlock d st prev := by
  unfold setupDataForBlock
  by_cases h0 : extractObservableState prev.packed = 0
  · rw [if_pos h0, if_pos h0, hbr]
  · rw [if_neg h0, if_neg h0]
    by_cases h12 : extractObservableState prev.packed = 1
        ∨ extractObservableState prev.packed = 2
    · rw [if_pos h12, if_pos h12, hbr]
    · rw [if_neg h12, if_neg h12]
      have hge : persistentsStart ≤ extractObservableState prev.packed := by
        unfold persistentsStart
        omega
      cases hl : persistentContexts st (extractObservableState prev.packed) with
      | none =>
        have hx := hstale hge
        rw [hl] at hx
        simp at hx
      | some s =>
        rw [hctx _ s hl]
        show (s, st'.isBroken) = (s, st.isBroken)
        rw [hbr]

theorem mapPersistentSequence_idem (st : HighlighterState) (key : CtxKey) :
    mapPersistentSequence (mapPersistentSequence st key) key
      = mapPersistentSequence st key := by
  by_cases hs : (seqIndex st.persistentSequences key).isSome = true
  · have h1 : mapPersistentSequence st key = st := by
      unfold mapPersistentSequence
      rw [if_pos hs]
    rw [h1, h1]
  · have hnone : seqIndex st.persistentSequences key = none := by
      cases hx : seqIndex st.persistentSequences key
      · rfl
      · rw [hx] at hs; simp at hs
    have h1 : mapPersistentSequence st key
        = { st with persistentSequences := st.persistentSequences ++ [key] } := by
      unfold mapPersistentSequence
      rw [if_neg hs]
    rw [h1]
    unfold mapPersistentSequence
    rw [if_pos (by
      rw [show ({ st with persistentSequences := st.persistentSequences ++ [key] }
          : HighlighterState).persistentSequences
          = st.persistentSequences ++ [key] from rfl,
        seqIndex_append_self st.persistentSequences key hnone]
      rfl)]

/-- Claim C2: within one instance, mapPersistentSequence is a no-op on a key
already in the table; an unseen key is assigned the fresh id
`PersistentsStart + counter`; once a key maps to id k it maps to k after any
further sequence of mapPersistentSequence calls; and an id present in the
persistent-contexts table keeps its context sequence forever. -/
theorem mapPersistentSequence_stable :
    ∀ (st : HighlighterState) (key : CtxKey),
      ((lookupPersistentId st key).isSome = true → mapPersistentSequence st key = st) ∧
      (lookupPersistentId st key = none →
        lookupPersistentId (mapPersistentSequence st key) key
          = some (persistentsStart + st.counter)) ∧
      (∀ k, lookupPersistentId st key = some k →
        ∀ keys, lookupPersistentId (List.foldl mapPersistentSequence st keys) key
          = some k) ∧
      (∀ id seqv, persistentContexts st id = some seqv →
        ∀ keys, persistentContexts (List.foldl mapPersistentSequence st keys) id
          = some seqv) := by
  intro st key
  refine ⟨?_, ?_, ?_, ?_⟩
  · intro h
    unfold mapPersistentSequence
    rw [if_pos]
    unfold lookupPersistentId at h
    cases hs : seqIndex st.persistentSequences key with
    | none => rw [hs] at h; simp at h
    | some i => rfl
  · intro h
    unfold lookupPersistentId at h
    have hs : seqIndex st.persistentSequences key = none := by
      cases hs : seqIndex st.persistentSequences key with
      | none => rfl
      | some i => rw [hs] at h; simp at h
    unfold mapPersistentSequence
    rw [if_neg (by rw [hs]; simp)]
    unfold lookupPersistentId
    show (seqIndex (st.persistentSequences ++ [key]) key).map _ = _
    rw [seqIndex_append_self st.persistentSequences key hs]
    rfl
  · intro k h keys
    exact lookupPersistentId_foldl_mono keys st key k h
  · intro id seqv h keys
    exact persistentContexts_foldl_mono keys st id seqv h

/-- Witness for C2 on concrete tables: a seen key is a no-op, a fresh key
gets id 3 on an empty table, an assigned id survives further calls, and the
reverse table keeps its entry. -/
theorem mapPersistentSequence_stable_witness :
    ((lookupPersistentId stA keyA).isSome = true ∧ mapPersistentSequence stA keyA = stA) ∧
    (lookupPersistentId freshState keyA = none ∧
      lookupPersistentId (mapPersistentSequence freshState keyA) keyA
        = some (persistentsStart + freshState.counter)) ∧
    (lookupPersistentId stA keyA = some 3 ∧
      lookupPersistentId (List.foldl mapPersistentSequence stA [keyB, keyA]) keyA
        = some 3) ∧
    (persistentContexts stA 3 = some keyA ∧
      persistentContexts (List.foldl mapPersistentSequence stA [keyB]) 3 = some keyA) :=
  ⟨⟨by decide, (mapPersistentSequence_stable stA keyA).1 (by decide)⟩,
   ⟨by decide, (mapPersistentSequence_stable freshState keyA).2.1 (by decide)⟩,
   ⟨by decide, (mapPersistentSequence_stable stA keyA).2.2.1 3 (by decide) [keyB, keyA]⟩,
   ⟨by decide, (mapPersistentSequence_stable stA keyA).2.2.2 3 keyA (by decide) [keyB]⟩⟩

/-- Claim C5, amended: line highlighting is idempotent for every (text,
incoming state) whose observable part, when it is a persistent id (at least
PersistentsStart), is present in the instance's persistent-contexts table —
re-running highlightBlock on the same text and incoming previous-line state
yields the same spans, outgoing packed state and continuation data although
the tables may have grown in between.  (A stale incoming persistent id
violates idempotence, see the counterexample.) -/
theorem highlightBlock_idempotent :
    ∀ (d : HDefinition) (st : HighlighterState) (prev : PrevData) (text : List Char),
      (persistentsStart ≤ extractObservableState prev.packed →
        (persistentContexts st (extractObservableState prev.packed)).isSome = true) →
      (highlightBlock d (highlightBlock d st prev text).state prev text).formats
        = (highlightBlock d st prev text).formats ∧
      (highlightBlock d (highlightBlock d st prev text).state prev text).outState
        = (highlightBlock d st prev text).outState ∧
      (highlightBlock d (highlightBlock d st prev text).state prev text).contextToContinue
        = (highlightBlock d st prev text).contextToContinue := by
  intro d st prev text hstale
  by_cases hb : st.isBroken = true
  · have h1 : highlightBlock d st prev text = ⟨[], 0, none, st⟩ := by
      unfold highlightBlock
      rw [if_pos hb]
    have h2 : (highlightBlock d st prev text).state = st := by rw [h1]
    rw [h2, h1]
    exact ⟨rfl, rfl, rfl⟩
  · have hbf : st.isBroken = false := by
      cases hx : st.isBroken
      · rfl
      · exact absurd hx hb
    have hk : (setupDataForBlock d st prev).2 = st.isBroken :=
      setup_keeps_broken d st prev hstale
    have hst1 : ({ st with isBroken := (setupDataForBlock d st prev).2 }
        : HighlighterState) = st := by
      rw [hk]
    set r := runLine d text text.length text.length (setupDataForBlock d st prev).1 0
      (extractRegionDepth prev.packed) with hrdef
    have h1 : highlightBlock d st prev text
        = blockEnding d st (extractObservableState prev.packed) r := by
      unfold highlightBlock
      rw [if_neg (by rw [hbf]; exact Bool.false_ne_true), hst1, ← hrdef]
    by_cases hwc : r.willCont = true
    · have e1 : blockEnding d st (extractObservableState prev.packed) r
          = ⟨r.formats, computeState r.depth 1, some r.stack,
             mapLeadingSequence st r.stack 1⟩ := by
        unfold blockEnding
        rw [if_pos hwc]
      have hbrL : (mapLeadingSequence st r.stack 1).isBroken = false := by
        rw [mapLeadingSequence_isBroken, hbf]
      have hctxL : ∀ id seqv, persistentContexts st id = some seqv →
          persistentContexts (mapLeadingSequence st r.stack 1) id = some seqv := by
        intro id seqv hh
        rw [persistentContexts_mapLeading]
        exact hh
      have hsetupL : setupDataForBlock d (mapLeadingSequence st r.stack 1) prev
          = setupDataForBlock d st prev :=
        setup_stable d st (mapLeadingSequence st r.stack 1) prev hctxL
          (by rw [hbrL, hbf]) hstale
      have hkL : ({ (mapLeadingSequence st r.stack 1) with
          isBroken := (setupDataForBlock d (mapLeadingSequence st r.stack 1) prev).2 }
          : HighlighterState) = mapLeadingSequence st r.stack 1 := by
        rw [hsetupL, hk, hbf, ← hbrL]
      have h2 : highlightBlock d (mapLeadingSequence st r.stack 1) prev text
          = blockEnding d (mapLeadingSequence st r.stack 1)
            (extractObservableState prev.packed) r := by
        unfold highlightBlock
        rw [if_neg (by rw [hbrL]; exact Bool.false_ne_true), hkL, hsetupL, ← hrdef]
      have e2 : blockEnding d (mapLeadingSequence st r.stack 1)
          (extractObservableState prev.packed) r
          = ⟨r.formats, computeState r.depth 1, some r.stack,
             mapLeadingSequence (mapLeadingSequence st r.stack 1) r.stack 1⟩ := by
        unfold blockEnding
        rw [if_pos hwc]
      rw [h1, e1]
      rw [show ((⟨r.formats, computeState r.depth 1, some r.stack,
        mapLeadingSequence st r.stack 1⟩ : BlockOut)).state
        = mapLeadingSequence st r.stack 1 from rfl]
      rw [h2, e2]
      exact ⟨rfl, rfl, rfl⟩
    · by_cases hds : r.stack = defaultStack d
      · have e1 : blockEnding d st (extractObservableState prev.packed) r
            = ⟨r.formats, computeState r.depth 0, none, st⟩ := by
          unfold blockEnding
          rw [if_neg hwc, if_pos hds]
        rw [h1, e1]
        rw [show ((⟨r.formats, computeState r.depth 0, none, st⟩ : BlockOut)).state
          = st from rfl]
        rw [h1, e1]
        exact ⟨rfl, rfl, rfl⟩
      · by_cases ho1 : extractObservableState prev.packed = 1
        · have e1 : blockEnding d st (extractObservableState prev.packed) r
              = ⟨r.formats, computeState r.depth 2, some r.stack,
                 mapLeadingSequence st r.stack 2⟩ := by
            unfold blockEnding
            rw [if_neg hwc, if_neg hds, if_pos ho1]
          have hbrL : (mapLeadingSequence st r.stack 2).isBroken = false := by
            rw [mapLeadingSequence_isBroken, hbf]
          have hctxL : ∀ id seqv, persistentContexts st id = some seqv →
              persistentContexts (mapLeadingSequence st r.stack 2) id = some seqv := by
            intro id seqv hh
            rw [persistentContexts_mapLeading]
            exact hh
          have hsetupL : setupDataForBlock d (mapLeadingSequence st r.stack 2) prev
              = setupDataForBlock d st prev :=
            setup_stable d st (mapLeadingSequence st r.stack 2) prev hctxL
              (by rw [hbrL, hbf]) hstale
          have hkL : ({ (mapLeadingSequence st r.stack 2) with
              isBroken :=
                (setupDataForBlock d (mapLeadingSequence st r.stack 2) prev).2 }
              : HighlighterState) = mapLeadingSequence st r.stack 2 := by
            rw [hsetupL, hk, hbf, ← hbrL]
          have h2 : highlightBlock d (mapLeadingSequence st r.stack 2) prev text
              = blockEnding d (mapLeadingSequence st r.stack 2)
                (extractObservableState prev.packed) r := by
            unfold highlightBlock
            rw [if_neg (by rw [hbrL]; exact Bool.false_ne_true), hkL, hsetupL,
              ← hrdef]
          have e2 : blockEnding d (mapLeadingSequence st r.stack 2)
              (extractObservableState prev.packed) r
              = ⟨r.formats, computeState r.depth 2, some r.stack,
                 mapLeadingSequence (mapLeadingSequence st r.stack 2) r.stack 2⟩ := by
            unfold blockEnding
            rw [if_neg hwc, if_neg hds, if_pos ho1]
          rw [h1, e1]
          rw [show ((⟨r.formats, computeState r.depth 2, some r.stack,
            mapLeadingSequence st r.stack 2⟩ : BlockOut)).state
            = mapLeadingSequence st r.stack 2 from rfl]
          rw [h2, e2]
          exact ⟨rfl, rfl, rfl⟩
        · have e1 : blockEnding d st (extractObservableState prev.packed) r
              = ⟨r.formats,
                 computeState r.depth
                   ((lookupPersistentId (mapPersistentSequence st r.stack)
                     r.stack).getD 0),
                 none, mapPersistentSequence st r.stack⟩ := by
            unfold blockEnding
            rw [if_neg hwc, if_neg hds, if_neg ho1]
          have hbrP : (mapPersistentSequence st r.stack).isBroken = false := by
            rw [mapPersistentSequence_isBroken, hbf]
          have hctxP : ∀ id seqv, persistentContexts st id = some seqv →
              persistentContexts (mapPersistentSequence st r.stack) id = some seqv :=
            fun id seqv hh => persistentContexts_map_mono st r.stack id seqv hh
          have hsetupP : setupDataForBlock d (mapPersistentSequence st r.stack) prev
              = setupDataForBlock d st prev :=
            setup_stable d st (mapPersistentSequence st r.stack) prev hctxP
              (by rw [hbrP, hbf]) hstale
          have hkP : ({ (mapPersistentSequence st r.stack) with
              isBroken :=
                (setupDataForBlock d (mapPersistentSequence st r.stack) prev).2 }
              : HighlighterState) = mapPersistentSequence st r.stack := by
            rw [hsetupP, hk, hbf, ← hbrP]
          have h2 : highlightBlock d (mapPersistentSequence st r.stack) prev text
              = blockEnding d (mapPersistentSequence st r.stack)
                (extractObservableState prev.packed) r := by
            unfold highlightBlock
            rw [if_neg (by rw [hbrP]; exact Bool.false_ne_true), hkP, hsetupP,
              ← hrdef]
          have e2 : blockEnding d (mapPersistentSequence st r.stack)
              (extractObservableState prev.packed) r
              = ⟨r.formats,
                 computeState r.depth
                   ((lookupPersistentId
                     (mapPersistentSequence (mapPersistentSequence st r.stack)
                       r.stack) r.stack).getD 0),
                 none,
                 mapPersistentSequence (mapPersistentSequence st r.stack)
                   r.stack⟩ := by
            unfold blockEnding
            rw [if_neg hwc, if_neg hds, if_neg ho1]
          rw [h1, e1]
          rw [show ((⟨r.formats,
            computeState r.depth
              ((lookupPersistentId (mapPersistentSequence st r.stack)
                r.stack).getD 0),
            none, mapPersistentSequence st r.stack⟩ : BlockOut)).state
            = mapPersistentSequence st r.stack from rfl]
          rw [h2, e2, mapPersistentSequence_idem st r.stack]
          exact ⟨rfl, rfl, rfl⟩

/-- Counterexample to claim C5 as stated: feeding a fresh instance the stale
persistent state 3 on the line `a` yields format spans on the first run but
marks the instance broken, so the second run on the very same (text,
incomingState) emits no spans at all. -/
theorem highlightBlock_stale_not_idempotent :
    (highlightBlock kwDef (highlightBlock kwDef freshState stalePrev lineA).state
        stalePrev lineA).formats
      ≠ (highlightBlock kwDef freshState stalePrev lineA).formats := by
  decide

/-- Witness for C5 on the comment-opening line `//x` from a fresh instance
(incoming state Default): the first run allocates a persistent id and the
second run reproduces spans, outgoing state and continuation data. -/
theorem highlightBlock_idempotent_witness :
    (persistentsStart ≤ extractObservableState (PrevData.mk 0 none).packed →
      (persistentContexts freshState
        (extractObservableState (PrevData.mk 0 none).packed)).isSome = true) ∧
    ((highlightBlock demoDef (highlightBlock demoDef freshState ⟨0, none⟩ lineOpen).state
        ⟨0, none⟩ lineOpen).formats
      = (highlightBlock demoDef freshState ⟨0, none⟩ lineOpen).formats ∧
    (highlightBlock demoDef (highlightBlock demoDef freshState ⟨0, none⟩ lineOpen).state
        ⟨0, none⟩ lineOpen).outState
      = (highlightBlock demoDef freshState ⟨0, none⟩ lineOpen).outState ∧
    (highlightBlock demoDef (highlightBlock demoDef freshState ⟨0, none⟩ lineOpen).state
        ⟨0, none⟩ lineOpen).contextToContinue
      = (highlightBlock demoDef freshState ⟨0, none⟩ lineOpen).contextToContinue) :=
  ⟨fun h => absurd h (by decide),
   highlightBlock_idempotent demoDef freshState ⟨0, none⟩ lineOpen
     (fun h => absurd h (by decide))⟩

/-- Claim C1: decoding the packed integer produced by encoding a region depth
and an observable state in the low 12 bits returns exactly the same pair. -/
theorem computeState_extract_roundtrip :
    ∀ (regionDepth observableState : ℕ), observableState < 4096 →
      extractRegionDepth (computeState regionDepth observableState) = regionDepth ∧
      extractObservableState (computeState regionDepth observableState) = observableState := by
  intro d s h
  unfold computeState extractRegionDepth extractObservableState
  omega

/-- Witness for C1 at regionDepth 7, observableState 5. -/
theorem computeState_extract_roundtrip_witness :
    (5 : ℕ) < 4096 ∧
      (extractRegionDepth (computeState 7 5) = 7 ∧
       extractObservableState (computeState 7 5) = 5) :=
  ⟨by decide, computeState_extract_roundtrip 7 5 (by decide)⟩

/-- Claim C9: decoding a packed state is a pure function of the integer
alone — it is unchanged by any number of table-mutating operations on the
instance, and two different instances decode every integer identically. -/
theorem extract_functions_instance_independent :
    ∀ (st1 st2 : HighlighterState) (keys : List CtxKey) (s : ℕ),
      decodeState (List.foldl mapPersistentSequence st1 keys) s = decodeState st1 s ∧
      decodeState st1 s = decodeState st2 s :=
  fun _ _ _ _ => ⟨rfl, rfl⟩

/-- Claim C10 (evaluation at the failing input): deleteBreakpoints called
with row list [2] on a handler holding breakpoints 10, 20, 30 at rows 0, 1, 2
removes the breakpoint at row 0 instead of the one at row 2: the loop indexes
the handler with the loop counter, not with the listed rows. -/
theorem deleteBreakpoints_deletes_wrong_rows :
    deleteBreakpoints [10, 20, 30] [2] = [20, 30] ∧
    deleteListedRows [10, 20, 30] [2] = [10, 20] ∧
    deleteBreakpoints [10, 20, 30] [2] ≠ deleteListedRows [10, 20, 30] [2] := by
  decide

/-- Claim C8: showDialog mutates its BreakpointData exactly when it returns
true — a rejected dialog, or an accepted one whose entered fields all equal
the current data, returns false with the data unchanged, and a true return
means every field now holds the entered value (which differs from the old
data in at least one field). -/
theorem showDialog_frame :
    ∀ (data : BreakpointData) (input : DialogInput),
      (input.accepted = false → showDialog data input = (false, data)) ∧
      ((showDialog data input).1 = false → (showDialog data input).2 = data) ∧
      ((showDialog data input).1 = true →
        (showDialog data input).2 =
          ⟨input.newFileName, input.newLineNumber, input.newFunc, input.newCondition,
           input.newIgnoreCount, input.newUseFullPath, input.newAddress,
           input.newThreadSpec⟩ ∧
        (showDialog data input).2 ≠ data) := by
  intro data input
  obtain ⟨f, l, fn, c, ic, u, a, t⟩ := data
  by_cases ha : input.accepted = false
  · unfold showDialog
    rw [if_pos ha]
    exact ⟨fun _ => rfl, fun _ => rfl, fun h => absurd h (by simp)⟩
  · by_cases hc : input.newLineNumber = l ∧ input.newUseFullPath = u
        ∧ input.newAddress = a ∧ input.newFunc = fn
        ∧ input.newFileName = f ∧ input.newCondition = c
        ∧ input.newIgnoreCount = ic ∧ input.newThreadSpec = t
    · unfold showDialog
      rw [if_neg ha, if_pos hc]
      exact ⟨fun h => absurd h ha, fun _ => rfl, fun h => absurd h (by simp)⟩
    · unfold showDialog
      rw [if_neg ha, if_neg hc]
      refine ⟨fun h => absurd h ha, fun h => absurd h (by simp), fun _ => ⟨rfl, ?_⟩⟩
      intro heq
      rw [BreakpointData.mk.injEq] at heq
      obtain ⟨e1, e2, e3, e4, e5, e6, e7, e8⟩ := heq
      exact hc ⟨e2, e6, e7, e3, e1, e4, e5, e8⟩

/-- Witness for C8: an accepted dialog with a changed line number returns
true and overwrites the fields; a rejected dialog returns false unchanged. -/
theorem showDialog_frame_witness :
    ((⟨false, 12, false, 0, "", "f.cpp", "", 0, ""⟩ : DialogInput).accepted = false →
      showDialog ⟨"f.cpp", 10, "", "", 0, false, 0, ""⟩
        ⟨false, 12, false, 0, "", "f.cpp", "", 0, ""⟩
        = (false, ⟨"f.cpp", 10, "", "", 0, false, 0, ""⟩)) ∧
    ((showDialog ⟨"f.cpp", 10, "", "", 0, false, 0, ""⟩
        ⟨true, 12, false, 0, "", "f.cpp", "", 0, ""⟩).1 = true →
      (showDialog ⟨"f.cpp", 10, "", "", 0, false, 0, ""⟩
        ⟨true, 12, false, 0, "", "f.cpp", "", 0, ""⟩).2
        = ⟨"f.cpp", 12, "", "", 0, false, 0, ""⟩ ∧
      (showDialog ⟨"f.cpp", 10, "", "", 0, false, 0, ""⟩
        ⟨true, 12, false, 0, "", "f.cpp", "", 0, ""⟩).2
        ≠ ⟨"f.cpp", 10, "", "", 0, false, 0, ""⟩) :=
  ⟨(showDialog_frame ⟨"f.cpp", 10, "", "", 0, false, 0, ""⟩
      ⟨false, 12, false, 0, "", "f.cpp", "", 0, ""⟩).1,
   (showDialog_frame ⟨"f.cpp", 10, "", "", 0, false, 0, ""⟩
      ⟨true, 12, false, 0, "", "f.cpp", "", 0, ""⟩).2.2⟩

end QtC
